import Mathlib

set_option maxRecDepth 200000

/-!
Verification of the tree-reduction sum program in src/sumOfNElements.cpp.

The program computes the sum of an N-element int array with a SYCL
tree-reduction kernel.  We embed the device buffer, the kernel (pair-load,
in-group strided tree reduction, write-back) and the host driver as Lean
functions and prove or refute the stated properties.

Machine integers: C++ int with the wraparound semantics the specification
fixes, i.e. arithmetic modulo 2^32, modelled as ZMod (2^32).  All index
arithmetic is on Nat.  A read of a global-memory index outside the buffer
is modelled as Option failure (none), since such an access has no defined
value in the source language.
-/

/-- The value type of the computation: C++ int with wraparound, i.e. the
integers modulo 2^32. -/
abbrev I32 : Type := ZMod (2 ^ 32)

/-- Line 65 of the source: size_t work_group_size = 512. -/
def work_group_size : ℕ := 512

/-- Line 67: size_t double_work_group_size = work_group_size * 2, the
maximum number of elements one work group reduces. -/
def double_work_group_size : ℕ := work_group_size * 2

/-- The device buffer (line 62): a linear array of int of a fixed length.
The values are a total function on ℕ; only indices below len are readable. -/
structure Buf where
  len : ℕ
  val : ℕ → I32

/-- Build a buffer from a host array, as buffer(arr.data(), range(arr.size()))
does on line 62. -/
def Buf.ofList (A : List I32) : Buf :=
  ⟨A.length, fun i => A.getD i 0⟩

/-- Reading global memory: defined only below the buffer length; an access
at or beyond len is out of bounds and yields none. -/
def Buf.read (B : Buf) (i : ℕ) : Option I32 :=
  if i < B.len then some (B.val i) else none

/-- Pair-load step of the kernel, lines 93-98 of the source: the scratch
cell starts at 0, and if 2*g < L (iterationCount) the work item overwrites
it with global_mem[2*g] + global_mem[2*g+1].  The source checks only
2*g < L and reads index 2*g+1 unconditionally. -/
def pairLoad (B : Buf) (L : ℕ) (g : ℕ) : Option I32 :=
  if 2 * g < L then do
    let x ← B.read (2 * g)
    let y ← B.read (2 * g + 1)
    pure (x + y)
  else pure 0

/-- The set of global-memory indices the pair-load of work item g touches
(lines 95-98): both 2*g and 2*g+1 when 2*g < L, nothing otherwise. -/
def pairLoadReads (L g : ℕ) : Finset ℕ :=
  if 2 * g < L then {2 * g, 2 * g + 1} else ∅

/-- All global-memory indices read by work group w (local ids l < G, global
id g = w*G + l). -/
def groupReads (L G w : ℕ) : Finset ℕ :=
  (Finset.range G).biUnion (fun l => pairLoadReads L (w * G + l))

/-- The global-memory indices work group w writes (lines 112-114): only the
work item with local id 0 writes, to global_mem[w]. -/
def groupWrites (w : ℕ) : Finset ℕ := {w}

/-- One stride of the in-group tree reduction, lines 102-106: every work
item computes index = 2*i*local_id and, when index < G, performs
S[index] = S[index] + S[index + i].  Over local ids l < G the updated
indices are exactly the multiples of 2*i below G (for 1 ≤ i).  The barrier
on line 108 separates strides, and within one stride the updated cells
(multiples of 2*i) are disjoint from the cells read at offset i, so the
simultaneous functional update is exact. -/
def treeStep (G i : ℕ) (S : ℕ → I32) : ℕ → I32 :=
  fun idx => if 2 * i ∣ idx ∧ idx < G then S idx + S (idx + i) else S idx

/-- The stride loop, line 102: for (i = 1; i < G; i *= 2).  The first
argument is fuel bounding the number of iterations; the loop exits as soon
as i ≥ G, after at most log2 G + 1 ≤ G iterations from i = 1. -/
def treeAux (G : ℕ) : ℕ → ℕ → (ℕ → I32) → (ℕ → I32)
  | 0, _, S => S
  | n + 1, i, S => if i < G then treeAux G n (2 * i) (treeStep G i S) else S

/-- The whole in-group tree reduction starting from stride i = 1. -/
def treeReduce (G : ℕ) (S : ℕ → I32) : ℕ → I32 :=
  treeAux G G 1 S

/-- Strides 2^j, 2^(j+1), ..., 2^(j+n-1) in order, used to reason about the
stride loop once the fuel has been discharged. -/
def stridesFrom (G : ℕ) : ℕ → ℕ → (ℕ → I32) → (ℕ → I32)
  | _, 0, S => S
  | j, n + 1, S => stridesFrom G (j + 1) n (treeStep G (2 ^ j) S)

/-- Scratch state of level j: every cell at a multiple of 2^j below G holds
the sum of the 2^j original values starting there. -/
def levelSum (G : ℕ) (j : ℕ) (S S0 : ℕ → I32) : Prop :=
  ∀ t, t * 2 ^ j < G → S (t * 2 ^ j) = ∑ u ∈ Finset.range (2 ^ j), S0 (t * 2 ^ j + u)

/-- The fully pair-loaded scratch of group w after the barrier on line 100:
cell l holds the pair-load of global id w*G + l.  Fails (none) if any work
item of the group performed an out-of-bounds read. -/
def groupScratch (B : Buf) (L G w : ℕ) : Option (ℕ → I32) :=
  if ∀ l ∈ Finset.range G, (pairLoad B L (w * G + l)).isSome then
    some (fun l => if l < G then (pairLoad B L (w * G + l)).getD 0 else 0)
  else none

/-- The value group w writes back to global_mem[w] on line 113: scratch
cell 0 after the tree reduction. -/
def groupResult (B : Buf) (L G w : ℕ) : Option I32 :=
  (groupScratch B L G w).map (fun S => treeReduce G S 0)

/-- One kernel launch (one sweep) with W work groups, lines 85-116: group w
writes its result to index w, all other buffer cells keep their values.
Fails if any group performed an out-of-bounds read. -/
def sweep (B : Buf) (L G W : ℕ) : Option Buf :=
  if ∀ w ∈ Finset.range W, (groupResult B L G w).isSome then
    some ⟨B.len, fun i => if i < W then (groupResult B L G i).getD 0 else B.val i⟩
  else none

/-- Line 74: the work-group count of a launch, the ceiling of L / (2*G)
computed as (L + 2*G - 1) / (2*G). -/
def nextL (L G : ℕ) : ℕ :=
  (L + 2 * G - 1) / (2 * G)

/-- Observable outcome of running main, lines 70-128. -/
structure RunResult where
  launches : ℕ
  finalIterationCount : ℕ
  result : Option I32

/-- The host driver, lines 70-128 of the source.  It sets iterationCount to
the array size, computes work_group_count, submits exactly ONE kernel
launch (there is no loop around lines 74-122), waits, performs the dead
update iterationCount = work_group_count (line 122, never read again), and
then reads the result from index 0 of the buffer (lines 126-128). -/
def codeRun (A : Buf) : RunResult :=
  let iterationCount := A.len
  let work_group_count := nextL iterationCount work_group_size
  let B1 := sweep A iterationCount work_group_size work_group_count
  { launches := 1
    finalIterationCount := work_group_count
    result := B1.bind (fun B => B.read 0) }

/-- The input the source hardcodes (lines 34-50): N = 8 and, since N is
even, arr[i] = i + 1, i.e. the array [1, 2, 3, 4, 5, 6, 7, 8]. -/
def arr8 : Buf := Buf.ofList [1, 2, 3, 4, 5, 6, 7, 8]

/-- A 2048-element array of ones, an input with N greater than
double_work_group_size = 1024. -/
def ones2048 : Buf := ⟨2048, fun _ => 1⟩

/-! ### Helper lemmas: sums over ranges -/

theorem sum_range_if (f : ℕ → I32) (m n : ℕ) (h : m ≤ n) :
    ∑ l ∈ Finset.range n, (if l < m then f l else 0) = ∑ l ∈ Finset.range m, f l := by
  calc ∑ l ∈ Finset.range n, (if l < m then f l else 0)
      = ∑ l ∈ Finset.range m, (if l < m then f l else 0) := by
        refine (Finset.sum_subset (Finset.range_subset.mpr h) ?_).symm
        intro x _ hx
        rw [Finset.mem_range] at hx
        exact if_neg hx
    _ = ∑ l ∈ Finset.range m, f l := by
        refine Finset.sum_congr rfl ?_
        intro x hx
        rw [Finset.mem_range] at hx
        exact if_pos hx

theorem sum_pairs (f : ℕ → I32) (m : ℕ) :
    ∑ l ∈ Finset.range m, (f (2 * l) + f (2 * l + 1)) = ∑ i ∈ Finset.range (2 * m), f i := by
  induction m with
  | zero => simp
  | succ m ih =>
    rw [Finset.sum_range_succ, ih, show 2 * (m + 1) = (2 * m + 1) + 1 from by ring,
      Finset.sum_range_succ, Finset.sum_range_succ, add_assoc]

/-! ### The in-group tree reduction computes the group sum -/

theorem treeAux_eq_stridesFrom (k : ℕ) :
    ∀ (fuel j : ℕ) (S : ℕ → I32), j ≤ k → k ≤ j + fuel →
      treeAux (2 ^ k) fuel (2 ^ j) S = stridesFrom (2 ^ k) j (k - j) S := by
  intro fuel
  induction fuel with
  | zero =>
    intro j S hj hk
    have hjk : j = k := by omega
    subst hjk
    simp [treeAux, stridesFrom]
  | succ n ih =>
    intro j S hj hk
    by_cases hjk : j < k
    · have hpow : (2 : ℕ) ^ j < 2 ^ k := Nat.pow_lt_pow_right (by norm_num) hjk
      have h2 : 2 * 2 ^ j = 2 ^ (j + 1) := by rw [pow_succ]; ring
      have hkj : k - j = (k - (j + 1)) + 1 := by omega
      simp only [treeAux, if_pos hpow, h2]
      rw [ih (j + 1) (treeStep (2 ^ k) (2 ^ j) S) (by omega) (by omega), hkj]
      rfl
    · have hjk2 : j = k := by omega
      subst hjk2
      simp [treeAux, stridesFrom]

theorem treeStep_levelSum (k j : ℕ) (hj : j < k) (S S0 : ℕ → I32)
    (h : levelSum (2 ^ k) j S S0) :
    levelSum (2 ^ k) (j + 1) (treeStep (2 ^ k) (2 ^ j) S) S0 := by
  intro t ht
  have hsplit : (2 : ℕ) ^ k = 2 ^ (k - j - 1) * 2 ^ (j + 1) := by
    rw [← pow_add]; congr 1; omega
  have ht' : t < 2 ^ (k - j - 1) := by
    by_contra hc
    push_neg at hc
    have := Nat.mul_le_mul_right (2 ^ (j + 1)) hc
    omega
  have hb : (t + 1) * 2 ^ (j + 1) ≤ 2 ^ k := by
    rw [hsplit]
    exact Nat.mul_le_mul_right _ (by omega)
  have hexp : (t + 1) * 2 ^ (j + 1) = t * 2 ^ (j + 1) + 2 ^ (j + 1) := by ring
  have hjj : (2 : ℕ) ^ j < 2 ^ (j + 1) := by
    have hp : (0 : ℕ) < 2 ^ j := Nat.pos_pow_of_pos _ (by norm_num)
    rw [pow_succ]; omega
  have hcond : 2 * 2 ^ j ∣ t * 2 ^ (j + 1) ∧ t * 2 ^ (j + 1) < 2 ^ k :=
    ⟨⟨t, by rw [pow_succ]; ring⟩, ht⟩
  have e1 : 2 * t * 2 ^ j = t * 2 ^ (j + 1) := by rw [pow_succ]; ring
  have e2 : (2 * t + 1) * 2 ^ j = t * 2 ^ (j + 1) + 2 ^ j := by rw [pow_succ]; ring
  have h1 := h (2 * t) (by rw [e1]; exact ht)
  have h2 := h (2 * t + 1) (by rw [e2]; omega)
  rw [e1] at h1
  rw [e2] at h2
  simp only [treeStep, if_pos hcond]
  rw [h1, h2]
  set idx := t * 2 ^ (j + 1) with hidx
  have h2a : (2 : ℕ) ^ (j + 1) = 2 ^ j + 2 ^ j := by rw [pow_succ]; omega
  rw [h2a, Finset.sum_range_add]
  congr 1
  refine Finset.sum_congr rfl ?_
  intro u _
  congr 1
  omega

theorem stridesFrom_levelSum (k : ℕ) :
    ∀ (n j : ℕ) (S S0 : ℕ → I32), j + n ≤ k →
      levelSum (2 ^ k) j S S0 → levelSum (2 ^ k) (j + n) (stridesFrom (2 ^ k) j n S) S0 := by
  intro n
  induction n with
  | zero =>
    intro j S S0 _ hl
    simpa [stridesFrom] using hl
  | succ m ih =>
    intro j S S0 h hl
    have step := treeStep_levelSum k j (by omega) S S0 hl
    have hrec := ih (j + 1) (treeStep (2 ^ k) (2 ^ j) S) S0 (by omega) step
    have heq : j + 1 + m = j + (m + 1) := by omega
    rw [heq] at hrec
    simpa [stridesFrom] using hrec

theorem treeReduce_pow2_sum (k : ℕ) (S : ℕ → I32) :
    treeReduce (2 ^ k) S 0 = ∑ l ∈ Finset.range (2 ^ k), S l := by
  have hfuel : k ≤ 0 + 2 ^ k := by
    have := Nat.lt_two_pow k
    omega
  have hbridge := treeAux_eq_stridesFrom k (2 ^ k) 0 S (Nat.zero_le k) hfuel
  have hbase : levelSum (2 ^ k) 0 S S := by
    intro t ht
    simp
  have hlev := stridesFrom_levelSum k k 0 S S (by omega) hbase
  have hpos : 0 < 2 ^ k := Nat.pos_pow_of_pos _ (by norm_num)
  have h0 := hlev 0 (by simp [hpos])
  simp only [Nat.zero_mul, Nat.zero_add] at h0
  rw [treeReduce, show (1 : ℕ) = 2 ^ 0 from rfl, hbridge]
  simpa using h0

/-! ### Evaluation lemmas for the kernel under an even active length -/

theorem pairLoad_of_lt (B : Buf) (L g : ℕ) (h1 : 2 * g < L) (h2 : 2 * g + 1 < B.len) :
    pairLoad B L g = some (B.val (2 * g) + B.val (2 * g + 1)) := by
  simp [pairLoad, Buf.read, if_pos h1, if_pos h2, if_pos (show 2 * g < B.len by omega)]

theorem pairLoad_of_ge (B : Buf) (L g : ℕ) (h : L ≤ 2 * g) :
    pairLoad B L g = some 0 := by
  simp [pairLoad, if_neg (show ¬ 2 * g < L by omega)]

theorem pairLoad_isSome_of_even (B : Buf) (L g : ℕ) (hE : Even L) (hL : L ≤ B.len) :
    (pairLoad B L g).isSome := by
  rcases Nat.lt_or_ge (2 * g) L with h | h
  · obtain ⟨r, hr⟩ := hE
    rw [pairLoad_of_lt B L g h (by omega)]
    rfl
  · rw [pairLoad_of_ge B L g h]
    rfl

theorem groupScratch_of_even (B : Buf) (L G w : ℕ) (hE : Even L) (hL : L ≤ B.len) :
    groupScratch B L G w =
      some (fun l => if l < G then (pairLoad B L (w * G + l)).getD 0 else 0) := by
  rw [groupScratch, if_pos]
  intro l _
  exact pairLoad_isSome_of_even B L _ hE hL

theorem groupResult_of_even (B : Buf) (L G w : ℕ) (hE : Even L) (hL : L ≤ B.len) :
    groupResult B L G w =
      some (treeReduce G (fun l => if l < G then (pairLoad B L (w * G + l)).getD 0 else 0) 0) := by
  rw [groupResult, groupScratch_of_even B L G w hE hL, Option.map_some']

theorem sweep_of_even (B : Buf) (L G W : ℕ) (hE : Even L) (hL : L ≤ B.len) :
    sweep B L G W =
      some ⟨B.len, fun i => if i < W then (groupResult B L G i).getD 0 else B.val i⟩ := by
  rw [sweep, if_pos]
  intro w _
  rw [groupResult_of_even B L G w hE hL]
  rfl

/-- The value work group 0 writes back equals the sum of the active prefix,
when the active length is even and at most double_work_group_size. -/
theorem group0_result_eq_prefix_sum (B : Buf) (hE : Even B.len)
    (hle : B.len ≤ double_work_group_size) :
    treeReduce work_group_size
      (fun l => if l < work_group_size then (pairLoad B B.len (0 * work_group_size + l)).getD 0 else 0) 0
      = ∑ i ∈ Finset.range B.len, B.val i := by
  obtain ⟨r, hr⟩ := hE
  have h9 : work_group_size = 2 ^ 9 := by norm_num [work_group_size]
  have hd : double_work_group_size = 1024 := by norm_num [double_work_group_size, work_group_size]
  rw [hd] at hle
  simp only [Nat.zero_mul, Nat.zero_add, h9]
  rw [treeReduce_pow2_sum 9]
  have step1 : ∀ l ∈ Finset.range (2 ^ 9),
      (if l < 2 ^ 9 then (pairLoad B B.len l).getD 0 else 0)
        = (if l < B.len / 2 then B.val (2 * l) + B.val (2 * l + 1) else 0) := by
    intro l hl
    rw [Finset.mem_range] at hl
    rw [if_pos hl]
    rcases Nat.lt_or_ge (2 * l) B.len with h | h
    · rw [pairLoad_of_lt B B.len l h (by omega), Option.getD_some, if_pos (by omega)]
    · rw [pairLoad_of_ge B B.len l h, Option.getD_some, if_neg (by omega)]
  rw [Finset.sum_congr rfl step1,
    sum_range_if (fun l => B.val (2 * l) + B.val (2 * l + 1)) (B.len / 2) (2 ^ 9) (by omega),
    sum_pairs, show 2 * (B.len / 2) = B.len from by omega]

/-! ### Arithmetic of the work-group count -/

theorem nextL_le_iff (L G m : ℕ) (hG : 1 ≤ G) : nextL L G ≤ m ↔ L ≤ 2 * G * m := by
  have hd : 0 < 2 * G := by omega
  rw [nextL, ← Nat.lt_succ_iff, Nat.div_lt_iff_lt_mul hd]
  have hexp : Nat.succ m * (2 * G) = 2 * G * m + 2 * G := by
    rw [Nat.succ_mul]; ring
  omega

theorem nextL_pos (L G : ℕ) (hG : 1 ≤ G) (hL : 1 ≤ L) : 1 ≤ nextL L G := by
  by_contra hc
  push_neg at hc
  have := (nextL_le_iff L G 0 hG).mp (by omega)
  omega

theorem nextL_lt_self (L G : ℕ) (hL : 2 ≤ L) (hG : 1 ≤ G) : nextL L G < L := by
  have key : 2 * (L - 1) ≤ 2 * G * (L - 1) :=
    Nat.mul_le_mul_right (L - 1) (by omega)
  have h := (nextL_le_iff L G (L - 1) hG).mpr (by omega)
  omega

theorem nextL_iterate_eq_one (G : ℕ) (hG : 1 ≤ G) :
    ∀ (k N : ℕ), 1 ≤ N → N ≤ (2 * G) ^ k → (fun M => nextL M G)^[k] N = 1 := by
  intro k
  induction k with
  | zero =>
    intro N h1 h2
    simp only [pow_zero] at h2
    simp only [Function.iterate_zero, id]
    omega
  | succ m ih =>
    intro N h1 h2
    rw [Function.iterate_succ_apply]
    refine ih (nextL N G) (nextL_pos N G hG h1) ?_
    rw [nextL_le_iff N G _ hG]
    have : 2 * G * (2 * G) ^ m = (2 * G) ^ (m + 1) := by rw [pow_succ]; ring
    omega

/-! ### Claim theorems -/

/-- Claim C5 (confirmed): in-group tree reduction.  With the work-group
size a power of two, the strided loop of lines 102-109 (strides
1, 2, 4, ..., G/2, each work item with index = 2*i*l < G performing
S[index] = S[index] + S[index + i], a barrier after every stride) leaves in
scratch cell 0 the sum of all G pair-loaded scratch values of the group. -/
theorem tree_reduction_computes_group_sum (k : ℕ) (S : ℕ → I32) :
    treeReduce (2 ^ k) S 0 = ∑ l ∈ Finset.range (2 ^ k), S l :=
  treeReduce_pow2_sum k S

/-- Claim C8 (confirmed): convergence.  For L ≥ 2 and G ≥ 1 the
work-group-count formula of line 74 satisfies ceil(L / (2G)) < L, so the
active length strictly decreases, and iterating it from any N with
N ≤ (2G)^k reaches 1 within k steps, i.e. within ceil(log_{2G} N)
sweeps. -/
theorem nextL_convergence (L G k N : ℕ) :
    (2 ≤ L → 1 ≤ G → nextL L G < L)
  ∧ (1 ≤ G → 1 ≤ N → N ≤ (2 * G) ^ k → (fun M => nextL M G)^[k] N = 1) :=
  ⟨fun hL hG => nextL_lt_self L G hL hG,
   fun hG h1 h2 => nextL_iterate_eq_one G hG k N h1 h2⟩

/-- Witness for C8 at L = 5, G = 1, k = 3, N = 8. -/
theorem nextL_convergence_witness :
    nextL 5 1 < 5 ∧ (fun M => nextL M 1)^[3] 8 = 1 :=
  ⟨(nextL_convergence 5 1 3 8).1 (by norm_num) (by norm_num),
   (nextL_convergence 5 1 3 8).2 (by norm_num) (by norm_num) (by norm_num)⟩

/-- Claim C9 (confirmed): under the precondition that the active length L
is even (and the buffer holds at least L elements), every global-memory
access of the kernel is in bounds: the sweep never faults, every index a
group reads is below L, a work item with 2*g ≥ L touches no buffer cell,
and the highest index read is L - 1 (read by the work item with
g = L/2 - 1). -/
theorem kernel_reads_in_bounds_even (B : Buf) (L G W w g : ℕ)
    (hE : Even L) (hL : L ≤ B.len) :
    (sweep B L G W).isSome = true
  ∧ (∀ i ∈ groupReads L G w, i < L)
  ∧ (L ≤ 2 * g → pairLoadReads L g = ∅)
  ∧ (2 ≤ L → L - 1 ∈ pairLoadReads L (L / 2 - 1)) := by
  obtain ⟨r, hr⟩ := hE
  refine ⟨?_, ?_, ?_, ?_⟩
  · rw [sweep_of_even B L G W ⟨r, hr⟩ hL]
    rfl
  · intro i hi
    rw [groupReads, Finset.mem_biUnion] at hi
    obtain ⟨l, hl, hmem⟩ := hi
    rw [pairLoadReads] at hmem
    by_cases h : 2 * (w * G + l) < L
    · rw [if_pos h] at hmem
      simp only [Finset.mem_insert, Finset.mem_singleton] at hmem
      rcases hmem with h1 | h1 <;> omega
    · rw [if_neg h] at hmem
      simp at hmem
  · intro h
    rw [pairLoadReads, if_neg (by omega)]
  · intro h2
    rw [pairLoadReads, if_pos (by omega)]
    simp only [Finset.mem_insert, Finset.mem_singleton]
    omega

/-- Witness for C9: buffer [5, 6, 7, 8], L = 4 (even), G = 2, W = 1,
group 0, idle work item g = 9. -/
theorem kernel_reads_in_bounds_even_witness :
    (sweep (Buf.ofList [5, 6, 7, 8]) 4 2 1).isSome = true
  ∧ (∀ i ∈ groupReads 4 2 0, i < 4)
  ∧ (4 ≤ 2 * 9 → pairLoadReads 4 9 = ∅)
  ∧ (2 ≤ 4 → 4 - 1 ∈ pairLoadReads 4 (4 / 2 - 1)) :=
  kernel_reads_in_bounds_even (Buf.ofList [5, 6, 7, 8]) 4 2 1 0 9 ⟨2, rfl⟩ (by decide)

/-- Claim C10 (confirmed): the driver performs exactly one kernel launch
regardless of the input length (the line 122 update of iterationCount is
dead), and whenever the length N is even with 2 ≤ N ≤ 2G = 1024, that
single sweep leaves the sum of the whole input in index 0, which the
driver then reads. -/
theorem codeRun_single_sweep_correct (B : Buf) :
    (codeRun B).launches = 1
  ∧ (2 ≤ B.len → B.len ≤ double_work_group_size → Even B.len →
      (codeRun B).result = some (∑ i ∈ Finset.range B.len, B.val i)) := by
  refine ⟨rfl, fun h2 hle hE => ?_⟩
  have hd : double_work_group_size = 1024 := by norm_num [double_work_group_size, work_group_size]
  rw [hd] at hle
  have hW : nextL B.len work_group_size = 1 := by
    rw [nextL, show work_group_size = 512 from rfl]
    omega
  show (sweep B B.len work_group_size (nextL B.len work_group_size)).bind
      (fun Bb => Bb.read 0) = some (∑ i ∈ Finset.range B.len, B.val i)
  rw [hW, sweep_of_even B B.len work_group_size 1 hE le_rfl, Option.some_bind']
  show (if (0 : ℕ) < B.len then
      some (if (0 : ℕ) < 1 then (groupResult B B.len work_group_size 0).getD 0 else B.val 0)
    else none) = some (∑ i ∈ Finset.range B.len, B.val i)
  rw [if_pos (show (0 : ℕ) < B.len by omega), if_pos (show (0 : ℕ) < 1 by norm_num),
    groupResult_of_even B B.len work_group_size 0 hE le_rfl, Option.getD_some]
  exact congrArg some (group0_result_eq_prefix_sum B hE (by rw [hd]; omega))

/-- Witness for C10: the hardcoded N = 8 input [1, ..., 8] of the source
yields exactly one launch and the printed result 36. -/
theorem codeRun_single_sweep_correct_witness :
    (codeRun arr8).launches = 1 ∧ (codeRun arr8).result = some 36 := by
  obtain ⟨h1, h2⟩ := codeRun_single_sweep_correct arr8
  refine ⟨h1, ?_⟩
  rw [h2 (by decide) (by decide) ⟨4, rfl⟩]
  decide

/-- Claim C1 fails on the code: on the three-element input [1, 1, 1] the
kernel reads global index 3 = N, one past the end of the buffer (the work
item with g = 1 has 2*g = 2 < 3 and reads B[2] and B[3]), so the program
does not return the sum 3. -/
theorem codeRun_oob_three_ones :
    (codeRun (Buf.ofList [1, 1, 1])).result = none
  ∧ (∑ i ∈ Finset.range (Buf.ofList [1, 1, 1]).len, (Buf.ofList [1, 1, 1]).val i) = 3
  ∧ (codeRun (Buf.ofList [1, 1, 1])).result ≠ some 3 := by
  refine ⟨by rfl, by decide, by decide⟩

/-- Claim C2 fails on the code: with 2048 ones (N = 2048 > 2G = 1024) the
driver still performs exactly one launch (there is no sweep loop) and then
reads B[0], which holds only group 0's partial sum 1024, not the total
2048. -/
theorem codeRun_single_launch_partial_sum :
    (codeRun ones2048).launches = 1
  ∧ double_work_group_size < ones2048.len
  ∧ (codeRun ones2048).result = some 1024
  ∧ (∑ i ∈ Finset.range ones2048.len, ones2048.val i) = 2048
  ∧ (1024 : I32) ≠ 2048 := by
  refine ⟨rfl, by decide, by decide, ?_, by decide⟩
  show (∑ i ∈ Finset.range 2048, (1 : I32)) = 2048
  rw [Finset.sum_const, Finset.card_range]
  norm_num

/-- Claim C3 fails on the code: the pair-load has no odd-tail branch.  At
odd active length L = 7, the work item with 2*g = 6 = L - 1 reads both
B[6] and the out-of-bounds index 7 = L, instead of loading B[6] alone. -/
theorem pairLoad_odd_tail_oob :
    pairLoad (Buf.ofList [1, 2, 3, 4, 5, 6, 7]) 7 3 = none
  ∧ (Buf.ofList [1, 2, 3, 4, 5, 6, 7]).read 6 = some 7
  ∧ (7 : ℕ) ∈ pairLoadReads 7 3 :=
  ⟨by rfl, by rfl, by decide⟩

/-- Claim C4 fails on the code: on the odd-length input [1, 2, 3, 4, 5] the
very first sweep (L = 5) reads index 5 out of bounds, so there is no
post-sweep buffer state whose active prefix could sum to 15. -/
theorem sweep_odd_length_fails :
    sweep (Buf.ofList [1, 2, 3, 4, 5]) 5 work_group_size (nextL 5 work_group_size) = none := by
  rfl

/-- Claim C7 fails on the code: on the singleton input [42] (L = 1) the
driver launches its kernel anyway, and work item 0 (2*g = 0 < 1) reads
B[0] together with the out-of-bounds index 1, so reduce([42]) is not 42. -/
theorem codeRun_singleton_launches_and_fails :
    (codeRun (Buf.ofList [42])).launches = 1
  ∧ (codeRun (Buf.ofList [42])).result = none
  ∧ (codeRun (Buf.ofList [42])).result ≠ some 42 :=
  ⟨rfl, by rfl, by decide⟩

/-- Counterexample to claim C6: with L = 8 and G = 2 the driver launches
W = ceil(8/4) = 2 groups; group 0 reads index 1 while group 1 writes
index 1, and no ordering exists between distinct groups within a sweep, so
the claim that no group reads an index another group has overwritten does
not hold. -/
theorem group_zero_reads_group_one_write :
    nextL 8 2 = 2
  ∧ (1 : ℕ) ∈ groupReads 8 2 0
  ∧ (1 : ℕ) ∈ groupWrites 1
  ∧ groupReads 8 2 0 ∩ groupWrites 1 ≠ ∅ :=
  ⟨by decide, by decide, by decide, by decide⟩

/-- Claim C6 amended (the write-set part of the claim holds, the
no-overwritten-read part only away from group 0): group w0 writes only
index w0 and reads only indices in [2*w0*G, 2*(w0+1)*G); the write sets of
distinct groups are disjoint; and every group w ≥ 1 reads no index that
any of the W launched groups writes, provided W ≤ 2*G.  Group 0, by
contrast, reads the write indices of groups 1..W-1 whenever W ≥ 2. -/
theorem group_access_disjointness (L G W w w0 w1 w2 : ℕ)
    (h12 : w1 ≠ w2) (hw : 1 ≤ w) (hWG : W ≤ 2 * G) :
    groupWrites w1 ∩ groupWrites w2 = ∅
  ∧ groupWrites w0 = {w0}
  ∧ groupReads L G w0 ⊆ Finset.Ico (2 * w0 * G) (2 * (w0 + 1) * G)
  ∧ groupReads L G w ∩ (Finset.range W).biUnion groupWrites = ∅ := by
  have hsub : ∀ v, ∀ i ∈ groupReads L G v, 2 * (v * G) ≤ i ∧ i < 2 * (v * G) + 2 * G := by
    intro v i hi
    rw [groupReads, Finset.mem_biUnion] at hi
    obtain ⟨l, hl, hmem⟩ := hi
    rw [Finset.mem_range] at hl
    rw [pairLoadReads] at hmem
    by_cases h : 2 * (v * G + l) < L
    · rw [if_pos h] at hmem
      simp only [Finset.mem_insert, Finset.mem_singleton] at hmem
      rcases hmem with h1 | h1 <;> omega
    · rw [if_neg h] at hmem
      simp at hmem
  refine ⟨?_, rfl, ?_, ?_⟩
  · rw [groupWrites, groupWrites]
    exact Finset.singleton_inter_of_not_mem (by simp [h12])
  · intro i hi
    obtain ⟨ha, hb⟩ := hsub w0 i hi
    rw [Finset.mem_Ico]
    have hexp1 : 2 * w0 * G = 2 * (w0 * G) := by ring
    have hexp2 : 2 * (w0 + 1) * G = 2 * (w0 * G) + 2 * G := by ring
    omega
  · rw [Finset.eq_empty_iff_forall_not_mem]
    intro i hi
    rw [Finset.mem_inter, Finset.mem_biUnion] at hi
    obtain ⟨hr, v, hv, hw2⟩ := hi
    rw [Finset.mem_range] at hv
    rw [groupWrites, Finset.mem_singleton] at hw2
    obtain ⟨ha, _⟩ := hsub w i hr
    have hGle : G ≤ w * G := Nat.le_mul_of_pos_left G (by omega)
    omega

/-- Witness for the amended C6 at L = 8, G = 2, W = 2, reading group
w = 1, write sets of groups 0 and 1. -/
theorem group_access_disjointness_witness :
    groupWrites 0 ∩ groupWrites 1 = ∅
  ∧ groupWrites 0 = {0}
  ∧ groupReads 8 2 0 ⊆ Finset.Ico (2 * 0 * 2) (2 * (0 + 1) * 2)
  ∧ groupReads 8 2 1 ∩ (Finset.range 2).biUnion groupWrites = ∅ :=
  group_access_disjointness 8 2 2 1 0 0 1 (by decide) (by decide) (by decide)
